import Mathlib

/-!
Verification of the AdmSync reconciliation tool (src/admsync.py) against its
natural-language specification.

The program reconciles group memberships between an authoritative admin
database and a LuckPerms permissions database.  The shallow embedding below
translates each Python function into a Lean definition:

* Python dicts become association lists `List (K × V)` with `lookupA` as the
  dict lookup (first matching key) and `keysA` as the key view;
* Python sets of uuids become `Finset String`;
* the MySQL tables become lists of row structures, and the SQL queries become
  pure functions over those lists;
* fallible operations (KeyError, TypeError, a query the store rejects) become
  `Option` / `Except` results;
* the side effects of `updateGroups` (audit rows written, mutation calls
  issued, the commit decision) are collected in an explicit `Trace`.
-/

/-- Errors the run can end with.  `typeError` is the Python TypeError raised
when `"group." + x` is evaluated at a `None` group name; `queryError` is a
query the MySQL store rejects (such as an IN-list with zero elements);
`keyError` is a Python KeyError on a dict access; `configurationError` is the
error kind named by the specification for an empty group-name set — the code
never raises it, it exists here only so statements can mention it. -/
inductive SyncError
  | typeError
  | queryError
  | keyError
  | configurationError
deriving DecidableEq

/-- Dict lookup on an association list: the value of the first entry whose key
matches, as Python dict indexing would return (Python dicts never hold a key
twice, so the first match is the only one). -/
def lookupA {K β : Type} [DecidableEq K] : List (K × β) → K → Option β
  | [], _ => none
  | (k, v) :: rest, key => if k = key then some v else lookupA rest key

/-- The keys of an association list, in order. -/
def keysA {K β : Type} (m : List (K × β)) : List K := m.map Prod.fst

/-- Embedding of `d[key].add(u)` for a dict of sets: insert `u` into the set
stored at `key`, failing (Python KeyError) when the key is absent. -/
def addToKey {K : Type} [DecidableEq K] :
    List (K × Finset String) → K → String → Option (List (K × Finset String))
  | [], _, _ => none
  | (k, s) :: rest, key, u =>
    if k = key then some ((k, insert u s) :: rest)
    else (addToKey rest key u).map (fun r => (k, s) :: r)

/-- Total variant of `addToKey`, used where the source has just ensured the
key is present: insert `u` into the set stored at the first matching key. -/
def setAdd {K : Type} [DecidableEq K] :
    List (K × Finset String) → K → String → List (K × Finset String)
  | [], _, _ => []
  | (k, s) :: rest, key, u =>
    if k = key then (k, insert u s) :: rest else (k, s) :: setAdd rest key u

/-- Embedding of the Python placeholder builder `(', %s' * n)[2:]`: `n` copies
of ", %s" joined, with the first two characters dropped. -/
def inListPlaceholders (n : Nat) : String :=
  (String.join (List.replicate n ", %s")).drop 2

/-! ## Admin database side: fetchModeratorsByGroup (src/admsync.py lines 7-35) -/

/-- A row of the admin `users` table.  Only the columns the query reads are
modelled: `id`, `uuid`, `group_id` and `frozen`. -/
structure AdminUser where
  id : Nat
  uuid : String
  group_id : Nat
  frozen : Bool
deriving DecidableEq

/-- A row of the admin `groups` table.  `minecraft_id` is the nullable
external group name the query selects as `group_name`; `weight` orders the
output. -/
structure AdminGroup where
  id : Nat
  minecraft_id : Option String
  weight : Int
deriving DecidableEq

/-- Insert one group into a list sorted by descending weight. -/
def insertDescByWeight (g : AdminGroup) : List AdminGroup → List AdminGroup
  | [] => [g]
  | h :: t => if h.weight < g.weight then g :: h :: t else h :: insertDescByWeight g t

/-- Sort the group rows by descending weight, modelling `ORDER BY g.weight DESC`. -/
def sortDescByWeight : List AdminGroup → List AdminGroup
  | [] => []
  | g :: rest => insertDescByWeight g (sortDescByWeight rest)

/-- The rows of the admin query: `users` RIGHT JOIN `groups` on
`u.group_id = g.id`, keeping a row when `u.id IS NULL` (a group with no
matching user — every user column comes out NULL, in particular the uuid) or
when the user is not frozen and the group name is not NULL; projected to
(uuid, group_name) and ordered by descending weight. -/
def adminJoinRows (users : List AdminUser) (groupsTable : List AdminGroup) :
    List (Option String × Option String) :=
  (sortDescByWeight groupsTable).flatMap (fun g =>
    match users.filter (fun u => u.group_id == g.id) with
    | [] => [((none : Option String), g.minecraft_id)]
    | us => (us.filter (fun u => !u.frozen && g.minecraft_id.isSome)).map
        (fun u => (some u.uuid, g.minecraft_id)))

/-- The accumulation loop of fetchModeratorsByGroup: for each row, create the
group key with an empty set when it is new, then add the uuid when it is not
NULL. -/
def accumGroups :
    List (Option String × Finset String) → List (Option String × Option String) →
    List (Option String × Finset String)
  | m, [] => m
  | m, (uuid, groupName) :: rest =>
    let m1 := if (lookupA m groupName).isSome then m else m ++ [(groupName, ∅)]
    let m2 := match uuid with
      | none => m1
      | some u => setAdd m1 groupName u
    accumGroups m2 rest

/-- Embedding of fetchModeratorsByGroup: run the admin query and fold its rows
into a dict from (nullable) group name to the set of member uuids. -/
def fetchModeratorsByGroup (users : List AdminUser) (groupsTable : List AdminGroup) :
    List (Option String × Finset String) :=
  accumGroups [] (adminJoinRows users groupsTable)

/-! ## LuckPerms read side: fetchCurrentModeratorsByGroup (lines 38-64) -/

/-- A row of `luckperms_user_permissions`.  Only the columns the SELECT and
DELETE read are modelled: `uuid`, `permission`, `value` (true for 1) and
`contexts`. -/
structure PermRow where
  uuid : String
  permission : String
  value : Bool
  contexts : String
deriving DecidableEq

/-- The SELECT text of fetchCurrentModeratorsByGroup after the Python
`.format` call filled in `n` placeholders for the IN-list. -/
def selectQuery (n : Nat) : String :=
  "SELECT `uuid`, `permission` FROM `luckperms_user_permissions` WHERE `permission` IN ("
    ++ inListPlaceholders n ++ ") AND `value` = 1 AND `contexts` = '\x7b\x7d'"

/-- Embedding of the Python parameter build `[ 'group.' + x for x in groups ]`
over dynamically typed group names: prefixing fails with a TypeError as soon
as a name is `None`. -/
def buildParams : List (Option String) → Except SyncError (List String)
  | [] => .ok []
  | none :: _ => .error .typeError
  | some x :: rest =>
    match buildParams rest with
    | .error e => .error e
    | .ok ps => .ok (("group." ++ x) :: ps)

/-- The store-side semantics of the SELECT: the (uuid, permission) projection
of the rows whose permission is among the parameters, whose value is 1 and
whose contexts column is the literal two-brace string. -/
def selectGrants (db : List PermRow) (params : List String) : List (String × String) :=
  (db.filter (fun r =>
    decide (r.permission ∈ params ∧ r.value = true ∧ r.contexts = "\x7b\x7d"))).map
    (fun r => (r.uuid, r.permission))

/-- Embedding of `permission[len('group.'):]`: drop the six characters of the
prefix "group.". -/
def groupOfPermission (p : String) : String := p.drop 6

/-- The accumulation loop of fetchCurrentModeratorsByGroup: for each selected
row, strip the "group." prefix and add the uuid to the set at that key,
failing (KeyError) when the key was not pre-created. -/
def buildCurrent :
    List (Option String × Finset String) → List (String × String) →
    Option (List (Option String × Finset String))
  | m, [] => some m
  | m, (uuid, permission) :: rest =>
    match addToKey m (some (groupOfPermission permission)) uuid with
    | none => none
    | some m2 => buildCurrent m2 rest

/-- What one call of fetchCurrentModeratorsByGroup did: the query texts it
sent to the store and its result. -/
structure FetchResult where
  issued : List String
  result : Except SyncError (List (Option String × Finset String))

/-- Embedding of fetchCurrentModeratorsByGroup: format the SELECT with one
placeholder per requested group, build the prefixed parameters (TypeError on a
`None` name, before anything is sent), execute the query — the store rejects
it when the IN-list is empty — and fold the rows into a dict pre-seeded with
an empty set per requested group. -/
def fetchCurrentModeratorsByGroup (db : List PermRow) (groups : List (Option String)) :
    FetchResult :=
  let query := selectQuery groups.length
  match buildParams groups with
  | .error e => { issued := [], result := .error e }
  | .ok params =>
    if inListPlaceholders groups.length = "" then
      { issued := [query], result := .error .queryError }
    else
      match buildCurrent (groups.map (fun k => (k, (∅ : Finset String))))
          (selectGrants db params) with
      | none => { issued := [query], result := .error .keyError }
      | some m => { issued := [query], result := .ok m }

/-- The set of member uuids the permissions store records as active global
members of group `g`: rows whose permission is exactly "group." ++ g, whose
value is 1 and whose contexts is the two-brace literal. -/
def grantSet (db : List PermRow) (g : String) : Finset String :=
  ((db.filter (fun r =>
    decide (r.permission = "group." ++ g ∧ r.value = true ∧ r.contexts = "\x7b\x7d"))).map
    PermRow.uuid).toFinset

/-! ## Mutation side: logUsersAction, removeMembers, addMembers (lines 67-118) -/

/-- One row inserted into `luckperms_actions`, with the constant actor fields
the source hard-codes. -/
structure AuditEntry where
  time : Nat
  actor_uuid : String
  actor_name : String
  type : String
  acted_uuid : String
  acted_name : String
  action : String
deriving DecidableEq

/-- Embedding of logUsersAction: one audit row per uuid in the set.  Python
iterates the set in unspecified order, so the rows form a multiset.  `nameOf`
models the `luckperms_players` username lookup with its COALESCE default, and
`now` the `int(time.time())` clock read. -/
def logUsersAction (nameOf : String → Option String) (now : Nat)
    (uuids : Finset String) (action : String) : Multiset AuditEntry :=
  uuids.val.map (fun uuid =>
    { time := now
      actor_uuid := "00000000-0000-0000-0000-000000000000"
      actor_name := "AdmSync@bot"
      type := "U"
      acted_uuid := uuid
      acted_name := (nameOf uuid).getD "null"
      action := action })

/-- The DELETE text removeMembers builds, with one IN-list placeholder per
member. -/
def deleteQuery (members : Finset String) : String :=
  "DELETE FROM `luckperms_user_permissions` WHERE `permission` = %s AND `uuid` IN ("
    ++ inListPlaceholders members.card ++ ") AND `value` = 1 AND `contexts` = '\x7b\x7d'"

/-- What one removeMembers or addMembers call did: the audit rows written, the
statements executed and the returned count `len(members)`. -/
structure MutationCall where
  audit : Multiset AuditEntry
  queries : List String
  count : Nat

/-- Embedding of removeMembers: log one "parent remove" audit row per member,
execute the DELETE, return the number of members processed. -/
def removeMembers (nameOf : String → Option String) (now : Nat)
    (group : String) (members : Finset String) : MutationCall :=
  { audit := logUsersAction nameOf now members ("parent remove " ++ group)
    queries := [deleteQuery members]
    count := members.card }

/-- The INSERT text addMembers executes once per member. -/
def insertQuery : String :=
  "INSERT INTO `luckperms_user_permissions` (`uuid`, `permission`, `value`, `server`, `world`, `expiry`, `contexts`) VALUES (%s, %s, '1', 'global', 'global', '0', '\x7b\x7d')"

/-- Embedding of addMembers: log one "parent add" audit row per member,
execute the INSERT for each member, return the number of members processed. -/
def addMembers (nameOf : String → Option String) (now : Nat)
    (group : String) (members : Finset String) : MutationCall :=
  { audit := logUsersAction nameOf now members ("parent add " ++ group)
    queries := List.replicate members.card insertQuery
    count := members.card }

/-! ## Reconciliation: updateGroups (lines 121-144) -/

/-- A group-to-members dict with string keys, as updateGroups receives. -/
abbrev GroupMap := List (String × Finset String)

/-- The dict comprehension shared by lines 131 and 132: one entry per key of
`groups` (the desired dict), combining the two sets at that key with `op`,
failing (KeyError) when a desired key is absent from `current_groups`. -/
def computeDiffWith (op : Finset String → Finset String → Finset String)
    (current_groups : GroupMap) : GroupMap → Option GroupMap
  | [] => some []
  | (k, d) :: rest =>
    match lookupA current_groups k with
    | none => none
    | some c =>
      match computeDiffWith op current_groups rest with
      | none => none
      | some r => some ((k, op c d) :: r)

/-- Line 131: `toRemove` maps each desired key to current minus desired. -/
def computeToRemove (current_groups groups : GroupMap) : Option GroupMap :=
  computeDiffWith (fun c d => c \ d) current_groups groups

/-- Line 132: `toAdd` maps each desired key to desired minus current. -/
def computeToAdd (current_groups groups : GroupMap) : Option GroupMap :=
  computeDiffWith (fun c d => d \ c) current_groups groups

/-- The outcome of one of the two apply loops: the audit rows written, the
(group, members) pairs actually passed to the mutation call, and the
accumulated count. -/
structure BatchOut where
  audit : Multiset AuditEntry
  calls : List (String × Finset String)
  count : Nat

/-- One apply loop of updateGroups: walk the diff dict and, for every group
whose member set is non-empty (`if len(members):`), perform the mutation call
and accumulate its count. -/
def processBatch (call : String → Finset String → MutationCall) :
    GroupMap → BatchOut
  | [] => { audit := 0, calls := [], count := 0 }
  | (group, members) :: rest =>
    if members.card ≠ 0 then
      { audit := (call group members).audit + (processBatch call rest).audit
        calls := (group, members) :: (processBatch call rest).calls
        count := (call group members).count + (processBatch call rest).count }
    else processBatch call rest

/-- Everything one updateGroups run did: audit rows, the removeMembers and
addMembers calls issued, the two totals, and whether the transaction was
committed (`if added or removed:`). -/
structure Trace where
  audit : Multiset AuditEntry
  removeCalls : List (String × Finset String)
  addCalls : List (String × Finset String)
  removed : Nat
  added : Nat
  committed : Bool
deriving DecidableEq

/-- The trace of the loop-and-commit part of updateGroups (lines 133-144),
once the two diff dicts are in hand: run the removal loop then the addition
loop, and commit exactly when a non-zero total was added or removed
(`if added or removed:`). -/
def mkTrace (nameOf : String → Option String) (now : Nat)
    (toRemove toAdd : GroupMap) : Trace :=
  { audit := (processBatch (removeMembers nameOf now) toRemove).audit
      + (processBatch (addMembers nameOf now) toAdd).audit
    removeCalls := (processBatch (removeMembers nameOf now) toRemove).calls
    addCalls := (processBatch (addMembers nameOf now) toAdd).calls
    removed := (processBatch (removeMembers nameOf now) toRemove).count
    added := (processBatch (addMembers nameOf now) toAdd).count
    committed := (processBatch (addMembers nameOf now) toAdd).count != 0
      || (processBatch (removeMembers nameOf now) toRemove).count != 0 }

/-- Embedding of updateGroups: compute `toRemove` then `toAdd` (a missing key
in `current_groups` raises KeyError, modelled as `none`), then run the two
apply loops and the commit decision. -/
def updateGroups (nameOf : String → Option String) (now : Nat)
    (current_groups groups : GroupMap) : Option Trace :=
  match computeToRemove current_groups groups with
  | none => none
  | some toRemove =>
    match computeToAdd current_groups groups with
    | none => none
    | some toAdd => some (mkTrace nameOf now toRemove toAdd)

/-- One entry of the diff application below: at a key of both diff dicts,
remove the toRemove set and add the toAdd set; any other entry is untouched. -/
def applyEntry (toRemove toAdd : GroupMap) (e : String × Finset String) :
    String × Finset String :=
  match lookupA toRemove e.1, lookupA toAdd e.1 with
  | some r, some a => (e.1, (e.2 \ r) ∪ a)
  | _, _ => e

/-- The application of a computed diff to the current mapping, as the
specification describes convergence: at every key of the diff dicts, remove
the toRemove set and add the toAdd set; other entries stay untouched. -/
def applyDiff (current_groups toRemove toAdd : GroupMap) : GroupMap :=
  current_groups.map (applyEntry toRemove toAdd)

/-- The total number of member entries across a diff dict. -/
def sumCards (m : GroupMap) : Nat := (m.map (fun e => e.2.card)).sum

/-- The uuids of the selected rows whose stripped permission names the key
`k`; the set the accumulation loop of fetchCurrentModeratorsByGroup collects
at `k`. -/
def rowSet (rows : List (String × String)) (k : Option String) : Finset String :=
  ((rows.filter (fun r => decide (some (groupOfPermission r.2) = k))).map Prod.fst).toFinset

/-! ## Concrete sample data (the scenario of the specification, section 8) -/

/-- Sample current dict: mod holds B and C, helper holds D, and one extra
group that the desired dict does not mention. -/
def exCurrent : GroupMap :=
  [("mod", {"B", "C"}), ("helper", {"D"}), ("extra", {"E"})]

/-- Sample desired dict: mod should hold A and B, helper should be empty. -/
def exGroups : GroupMap := [("mod", {"A", "B"}), ("helper", (∅ : Finset String))]

/-- The toRemove dict the scenario expects. -/
def exToRemove : GroupMap := [("mod", {"C"}), ("helper", {"D"})]

/-- The toAdd dict the scenario expects. -/
def exToAdd : GroupMap := [("mod", {"A"}), ("helper", (∅ : Finset String))]

/-- A username lookup that resolves nobody, so every audit row falls back to
the literal "null". -/
def exNameOf : String → Option String := fun _ => none

/-- The trace of the sample run. -/
def exTrace : Trace := mkTrace exNameOf 0 exToRemove exToAdd

/-- A sample permissions table: one active global grant of group.mod, one
inactive grant of group.mod and one active grant of another group. -/
def exDb : List PermRow :=
  [{ uuid := "U1", permission := "group.mod", value := true, contexts := "\x7b\x7d" },
   { uuid := "U2", permission := "group.mod", value := false, contexts := "\x7b\x7d" },
   { uuid := "U3", permission := "group.other", value := true, contexts := "\x7b\x7d" }]

/-- A sample admin group catalog: a single group whose external name is NULL
and that no user row references. -/
def exAdminGroups : List AdminGroup := [{ id := 1, minecraft_id := none, weight := 0 }]

/-- Sample requested group names for the LuckPerms read. -/
def exNames : List String := ["mod"]

/-! ## Helper lemmas about association lists -/

/-- A key has a value exactly when it is among the keys. -/
theorem lookupA_isSome_iff {K β : Type} [DecidableEq K] (m : List (K × β)) (k : K) :
    (lookupA m k).isSome = true ↔ k ∈ keysA m := by
  induction m with
  | nil => simp [lookupA, keysA]
  | cons e rest ih =>
    obtain ⟨k0, v⟩ := e
    by_cases h : k0 = k
    · simp [lookupA, keysA, h]
    · simp [lookupA, keysA, h, ih]
      intro hc
      exact absurd hc.symm h

/-- A found value certifies key membership. -/
theorem mem_keysA_of_lookupA {K β : Type} [DecidableEq K] {m : List (K × β)} {k : K}
    {v : β} (h : lookupA m k = some v) : k ∈ keysA m := by
  have : (lookupA m k).isSome = true := by rw [h]; rfl
  exact (lookupA_isSome_iff m k).mp this

/-! ## Helper lemmas about the diff comprehension -/

/-- The comprehension succeeds when every desired key is present in the
current dict. -/
theorem computeDiffWith_isSome (op : Finset String → Finset String → Finset String)
    (current_groups : GroupMap) (groups : GroupMap)
    (h : ∀ k ∈ keysA groups, (lookupA current_groups k).isSome = true) :
    ∃ R, computeDiffWith op current_groups groups = some R := by
  induction groups with
  | nil => exact ⟨[], rfl⟩
  | cons e rest ih =>
    obtain ⟨k, d⟩ := e
    have hk : (lookupA current_groups k).isSome = true := h k (by simp [keysA])
    obtain ⟨c, hc⟩ := Option.isSome_iff_exists.mp hk
    obtain ⟨r, hr⟩ := ih (fun k2 hk2 => h k2 (by simp [keysA] at hk2 ⊢; exact Or.inr hk2))
    exact ⟨(k, op c d) :: r, by simp [computeDiffWith, hc, hr]⟩

/-- The comprehension keeps exactly the desired keys, in order. -/
theorem computeDiffWith_keys (op : Finset String → Finset String → Finset String)
    (current_groups : GroupMap) :
    ∀ groups R, computeDiffWith op current_groups groups = some R →
      keysA R = keysA groups := by
  intro groups
  induction groups with
  | nil =>
    intro R hR
    simp [computeDiffWith] at hR
    simp [← hR]
  | cons e rest ih =>
    intro R hR
    obtain ⟨k, d⟩ := e
    unfold computeDiffWith at hR
    cases hc : lookupA current_groups k with
    | none => rw [hc] at hR; exact absurd hR (by simp)
    | some c =>
      rw [hc] at hR
      cases hr : computeDiffWith op current_groups rest with
      | none => rw [hr] at hR; exact absurd hR (by simp)
      | some r =>
        rw [hr] at hR
        have hR2 := Option.some.inj hR
        rw [← hR2]
        simp [keysA] at ih ⊢
        exact ih r hr

/-- The value the comprehension stores at a desired key. -/
theorem computeDiffWith_lookupA (op : Finset String → Finset String → Finset String)
    (current_groups : GroupMap) :
    ∀ groups R, computeDiffWith op current_groups groups = some R →
      ∀ k d c, lookupA groups k = some d → lookupA current_groups k = some c →
        lookupA R k = some (op c d) := by
  intro groups
  induction groups with
  | nil => intro R hR k d c hd hc; simp [lookupA] at hd
  | cons e rest ih =>
    intro R hR k d c hd hc
    obtain ⟨k0, d0⟩ := e
    unfold computeDiffWith at hR
    cases hc0 : lookupA current_groups k0 with
    | none => rw [hc0] at hR; exact absurd hR (by simp)
    | some c0 =>
      rw [hc0] at hR
      cases hr : computeDiffWith op current_groups rest with
      | none => rw [hr] at hR; exact absurd hR (by simp)
      | some r =>
        rw [hr] at hR
        have hR2 := Option.some.inj hR
        by_cases hkk : k0 = k
        · subst hkk
          have hdd : d0 = d := by simpa [lookupA] using hd
          have hcc : c0 = c := by rw [hc0] at hc; exact Option.some.inj hc
          subst hdd; subst hcc
          rw [← hR2]
          simp [lookupA]
        · have hd2 : lookupA rest k = some d := by simpa [lookupA, hkk] using hd
          have := ih r hr k d c hd2 hc
          rw [← hR2]
          simpa [lookupA, hkk]

/-- With distinct desired keys, every entry produced by the comprehension is
the combination of the two sets stored at its key. -/
theorem computeDiffWith_mem (op : Finset String → Finset String → Finset String)
    (current_groups : GroupMap) :
    ∀ groups R, computeDiffWith op current_groups groups = some R →
      (keysA groups).Nodup →
      ∀ p ∈ R, ∃ c d, lookupA current_groups p.1 = some c ∧
        lookupA groups p.1 = some d ∧ p.2 = op c d := by
  intro groups
  induction groups with
  | nil =>
    intro R hR _ p hp
    simp [computeDiffWith] at hR
    rw [hR] at hp
    simp at hp
  | cons e rest ih =>
    intro R hR hnd p hp
    obtain ⟨k0, d0⟩ := e
    unfold computeDiffWith at hR
    cases hc0 : lookupA current_groups k0 with
    | none => rw [hc0] at hR; exact absurd hR (by simp)
    | some c0 =>
      rw [hc0] at hR
      cases hr : computeDiffWith op current_groups rest with
      | none => rw [hr] at hR; exact absurd hR (by simp)
      | some r =>
        rw [hr] at hR
        have hR2 := Option.some.inj hR
        rw [← hR2] at hp
        have hnd2 : (k0 :: keysA rest).Nodup := hnd
        obtain ⟨hk0, hndr⟩ := List.nodup_cons.mp hnd2
        rcases List.mem_cons.mp hp with heq | hmem
        · subst heq
          exact ⟨c0, d0, hc0, by simp [lookupA], rfl⟩
        · obtain ⟨c, d, hc, hd, he⟩ := ih r hr hndr p hmem
          have hk : p.1 ∈ keysA rest := mem_keysA_of_lookupA hd
          have hne : k0 ≠ p.1 := fun h => hk0 (by rw [h]; exact hk)
          exact ⟨c, d, hc, by simpa [lookupA, hne] using hd, he⟩

/-! ## Helper lemmas about applying the diff -/

/-- Applying an entry never changes its key. -/
theorem applyEntry_fst (toRemove toAdd : GroupMap) (e : String × Finset String) :
    (applyEntry toRemove toAdd e).1 = e.1 := by
  unfold applyEntry
  cases lookupA toRemove e.1 <;> cases lookupA toAdd e.1 <;> rfl

/-- The diff application keeps the keys of the current dict. -/
theorem keysA_applyDiff (current_groups toRemove toAdd : GroupMap) :
    keysA (applyDiff current_groups toRemove toAdd) = keysA current_groups := by
  unfold applyDiff keysA
  rw [List.map_map]
  exact List.map_congr_left (fun e _ => applyEntry_fst toRemove toAdd e)

/-- Lookup on a cons cell of an association list. -/
theorem lookupA_cons {K β : Type} [DecidableEq K] (x : K × β) (l : List (K × β)) (k : K) :
    lookupA (x :: l) k = if x.1 = k then some x.2 else lookupA l k := by
  obtain ⟨a, b⟩ := x
  rfl

/-- Lookup into the applied dict transforms the looked-up current value. -/
theorem lookupA_applyDiff (toRemove toAdd : GroupMap) :
    ∀ (current_groups : GroupMap) (k : String),
      lookupA (applyDiff current_groups toRemove toAdd) k =
        (lookupA current_groups k).map (fun c => (applyEntry toRemove toAdd (k, c)).2) := by
  intro current_groups
  induction current_groups with
  | nil => intro k; rfl
  | cons e rest ih =>
    intro k
    rw [show applyDiff (e :: rest) toRemove toAdd
        = applyEntry toRemove toAdd e :: applyDiff rest toRemove toAdd from rfl]
    rw [lookupA_cons (applyEntry toRemove toAdd e), lookupA_cons e]
    rw [applyEntry_fst]
    by_cases h : e.1 = k
    · subst h
      simp
    · simp only [if_neg h]
      exact ih k

/-! ## Helper lemmas about strings and placeholders -/

/-- Stripping the six-character prefix from "group." ++ g gives back g. -/
theorem groupOfPermission_prefix (g : String) : groupOfPermission ("group." ++ g) = g := by
  unfold groupOfPermission
  apply String.ext
  rw [String.data_drop, String.data_append]
  simp

/-- String concatenation cancels on the left. -/
theorem string_append_left_cancel {s t u : String} (h : s ++ t = s ++ u) : t = u := by
  apply String.ext
  have h2 := congrArg String.data h
  rw [String.data_append, String.data_append] at h2
  exact List.append_cancel_left h2

/-- A "parent add" action text never equals a "parent remove" action text. -/
theorem parent_add_ne_remove (g k : String) :
    "parent add " ++ g ≠ "parent remove " ++ k := by
  intro h
  have h2 := congrArg String.data h
  rw [String.data_append, String.data_append] at h2
  simp at h2

/-- Zero placeholders give the empty IN-list. -/
theorem inListPlaceholders_zero : inListPlaceholders 0 = "" := by decide

/-- At least one placeholder gives a non-empty IN-list. -/
theorem inListPlaceholders_ne_empty {n : Nat} (h : n ≠ 0) : inListPlaceholders n ≠ "" := by
  cases n with
  | zero => exact absurd rfl h
  | succ m =>
    unfold inListPlaceholders
    intro hc
    have h2 := congrArg String.data hc
    rw [String.data_drop, String.join_eq] at h2
    have hd : (", %s").data = [',', ' ', '%', 's'] := rfl
    simp [List.replicate_succ, hd] at h2

/-! ## Helper lemmas about the mutation loops -/

/-- logUsersAction writes exactly one audit row per uuid. -/
theorem logUsersAction_card (nameOf : String → Option String) (now : Nat)
    (uuids : Finset String) (action : String) :
    Multiset.card (logUsersAction nameOf now uuids action) = uuids.card := by
  unfold logUsersAction
  rw [Multiset.card_map]
  rfl

/-- Every audit row written by logUsersAction carries the given action text
and the uuid of one of the members. -/
theorem logUsersAction_mem (nameOf : String → Option String) (now : Nat)
    (uuids : Finset String) (action : String) (e : AuditEntry)
    (he : e ∈ logUsersAction nameOf now uuids action) :
    e.acted_uuid ∈ uuids ∧ e.action = action := by
  simp [logUsersAction, Multiset.mem_map] at he
  obtain ⟨u, hu, rfl⟩ := he
  exact ⟨hu, rfl⟩

/-- Every (group, members) pair an apply loop acts on is an entry of the diff
dict with a non-empty member set. -/
theorem processBatch_calls (call : String → Finset String → MutationCall) :
    ∀ l : GroupMap, ∀ p ∈ (processBatch call l).calls, p ∈ l ∧ p.2.card ≠ 0 := by
  intro l
  induction l with
  | nil => intro p hp; simp [processBatch] at hp
  | cons e rest ih =>
    intro p hp
    obtain ⟨g, m⟩ := e
    by_cases h : m.card ≠ 0
    · simp only [processBatch, if_pos h] at hp
      rcases List.mem_cons.mp hp with heq | hmem
      · subst heq; exact ⟨List.mem_cons_self _ _, h⟩
      · obtain ⟨h1, h2⟩ := ih p hmem
        exact ⟨List.mem_cons_of_mem _ h1, h2⟩
    · simp only [processBatch, if_neg h] at hp
      obtain ⟨h1, h2⟩ := ih p hp
      exact ⟨List.mem_cons_of_mem _ h1, h2⟩

/-- The accumulated count of an apply loop is the total size of the diff
dict, provided each call reports the size of its member set. -/
theorem processBatch_count (call : String → Finset String → MutationCall)
    (hcount : ∀ g m, (call g m).count = m.card) :
    ∀ l : GroupMap, (processBatch call l).count = sumCards l := by
  intro l
  induction l with
  | nil => rfl
  | cons e rest ih =>
    obtain ⟨g, m⟩ := e
    have hsum : sumCards ((g, m) :: rest) = m.card + sumCards rest := by
      simp [sumCards]
    by_cases h : m.card ≠ 0
    · simp only [processBatch, if_pos h]
      rw [hcount, ih, hsum]
    · simp only [processBatch, if_neg h]
      push_neg at h
      rw [ih, hsum, h]
      omega

/-- The number of audit rows an apply loop writes is the total size of the
diff dict, provided each call writes one row per member. -/
theorem processBatch_audit_card (call : String → Finset String → MutationCall)
    (hcard : ∀ g m, Multiset.card (call g m).audit = m.card) :
    ∀ l : GroupMap, Multiset.card (processBatch call l).audit = sumCards l := by
  intro l
  induction l with
  | nil => rfl
  | cons e rest ih =>
    obtain ⟨g, m⟩ := e
    have hsum : sumCards ((g, m) :: rest) = m.card + sumCards rest := by
      simp [sumCards]
    by_cases h : m.card ≠ 0
    · simp only [processBatch, if_pos h]
      rw [Multiset.card_add, hcard, ih, hsum]
    · simp only [processBatch, if_neg h]
      push_neg at h
      rw [ih, hsum, h]
      omega

/-- Every audit row an apply loop writes belongs to one of its recorded
calls. -/
theorem processBatch_audit_mem (call : String → Finset String → MutationCall) :
    ∀ l : GroupMap, ∀ e ∈ (processBatch call l).audit,
      ∃ g m, (g, m) ∈ (processBatch call l).calls ∧ e ∈ (call g m).audit := by
  intro l
  induction l with
  | nil => intro e he; simp [processBatch] at he
  | cons p rest ih =>
    intro e he
    obtain ⟨g0, m0⟩ := p
    by_cases h : m0.card ≠ 0
    · simp only [processBatch, if_pos h] at he ⊢
      rcases Multiset.mem_add.mp he with hc | hr
      · exact ⟨g0, m0, List.mem_cons_self _ _, hc⟩
      · obtain ⟨g, m, hgm, hm⟩ := ih e hr
        exact ⟨g, m, List.mem_cons_of_mem _ hgm, hm⟩
    · simp only [processBatch, if_neg h] at he ⊢
      exact ih e he

/-- A successful updateGroups run is the trace built from the two diff
dicts. -/
theorem updateGroups_some (nameOf : String → Option String) (now : Nat)
    (current_groups groups : GroupMap) (t : Trace)
    (ht : updateGroups nameOf now current_groups groups = some t) :
    ∃ toRemove toAdd, computeToRemove current_groups groups = some toRemove ∧
      computeToAdd current_groups groups = some toAdd ∧
      t = mkTrace nameOf now toRemove toAdd := by
  unfold updateGroups at ht
  cases hR : computeToRemove current_groups groups with
  | none => rw [hR] at ht; exact absurd ht (by simp)
  | some toRemove =>
    rw [hR] at ht
    cases hA : computeToAdd current_groups groups with
    | none => rw [hA] at ht; exact absurd ht (by simp)
    | some toAdd =>
      rw [hA] at ht
      exact ⟨toRemove, toAdd, rfl, rfl, (Option.some.inj ht).symm⟩

/-! ## Finset identities used by convergence and disjointness -/

/-- Removing the remove-set and adding the add-set turns current into desired. -/
theorem sdiff_apply_identity (c d : Finset String) : (c \ (c \ d)) ∪ (d \ c) = d := by
  ext x
  simp [Finset.mem_union, Finset.mem_sdiff]
  tauto

/-- The add-set and the remove-set of one group never share a member. -/
theorem sdiff_sdiff_inter_empty (c d : Finset String) : (d \ c) ∩ (c \ d) = ∅ := by
  ext x
  simp [Finset.mem_inter, Finset.mem_sdiff]
  tauto

/-- Pulling an insert out of the left union argument. -/
theorem insert_union_comm (u : String) (s t : Finset String) :
    insert u s ∪ t = s ∪ insert u t := by
  ext x
  simp [Finset.mem_union, Finset.mem_insert]

/-- A diff dict whose sets are all empty has total size zero. -/
theorem sumCards_eq_zero {l : GroupMap} (h : ∀ p ∈ l, p.2 = ∅) : sumCards l = 0 := by
  induction l with
  | nil => rfl
  | cons e rest ih =>
    have he : e.2 = ∅ := h e (List.mem_cons_self _ _)
    have hr : sumCards rest = 0 := ih (fun p hp => h p (List.mem_cons_of_mem _ hp))
    have hc : sumCards (e :: rest) = e.2.card + sumCards rest := by
      simp [sumCards]
    rw [hc, he, hr]
    simp

/-! ## Helper lemmas for the LuckPerms fetch -/

/-- Building the parameters from well-typed (non-null) names prefixes each. -/
theorem buildParams_map_some (names : List String) :
    buildParams (names.map some) = .ok (names.map (fun g => "group." ++ g)) := by
  induction names with
  | nil => rfl
  | cons g rest ih => simp [buildParams, ih]

/-- The keys of the pre-seeded dict are the requested names. -/
theorem keysA_map_pair {K : Type} (l : List K) :
    keysA (l.map (fun k => (k, (∅ : Finset String)))) = l := by
  unfold keysA
  rw [List.map_map]
  have h : (Prod.fst ∘ fun k : K => (k, (∅ : Finset String))) = id := rfl
  rw [h, List.map_id]

/-- Looking a requested name up in the pre-seeded dict gives the empty set. -/
theorem lookupA_map_empty {K : Type} [DecidableEq K] (l : List K) (k : K) (h : k ∈ l) :
    lookupA (l.map (fun k2 => (k2, (∅ : Finset String)))) k = some ∅ := by
  induction l with
  | nil => simp at h
  | cons k0 rest ih =>
    by_cases hk : k0 = k
    · simp [lookupA, hk]
    · have : k ∈ rest := by
        rcases List.mem_cons.mp h with h1 | h2
        · exact absurd h1.symm hk
        · exact h2
      simp [lookupA, hk, ih this]

/-- adding a uuid at a present key: success, same keys, the set at the key
grows by the uuid and every other key is untouched. -/
theorem addToKey_spec {K : Type} [DecidableEq K] :
    ∀ (m : List (K × Finset String)) (key : K) (u : String), key ∈ keysA m →
      ∃ m2, addToKey m key u = some m2 ∧ keysA m2 = keysA m ∧
        lookupA m2 key = (lookupA m key).map (insert u) ∧
        ∀ k2, k2 ≠ key → lookupA m2 k2 = lookupA m k2 := by
  intro m
  induction m with
  | nil => intro key u h; simp [keysA] at h
  | cons e rest ih =>
    intro key u h
    obtain ⟨k0, s0⟩ := e
    by_cases hk : k0 = key
    · subst hk
      refine ⟨(k0, insert u s0) :: rest, by simp [addToKey], by simp [keysA], ?_, ?_⟩
      · simp [lookupA]
      · intro k2 hne
        by_cases h2 : k0 = k2
        · exact absurd h2 (fun hh => hne (hh ▸ rfl))
        · simp [lookupA, h2]
    · have hkr : key ∈ keysA rest := by
        have h2 : key ∈ k0 :: keysA rest := h
        rcases List.mem_cons.mp h2 with h3 | h4
        · exact absurd h3.symm hk
        · exact h4
      obtain ⟨m2, hm2, hkeys, hlk, hlo⟩ := ih key u hkr
      refine ⟨(k0, s0) :: m2, ?_, ?_, ?_, ?_⟩
      · simp [addToKey, hk, hm2]
      · have : keysA ((k0, s0) :: m2) = k0 :: keysA m2 := rfl
        rw [this, hkeys]
        rfl
      · simp [lookupA, hk, hlk]
      · intro k2 hne
        by_cases h2 : k0 = k2
        · simp [lookupA, h2]
        · simp [lookupA, h2, hlo k2 hne]

/-- Conjunction of two decisions as one decision. -/
theorem decide_and_eq (p q : Prop) [Decidable p] [Decidable q] :
    (decide p && decide q) = decide (p ∧ q) := by
  by_cases hp : p <;> by_cases hq : q <;> simp [hp, hq]

/-- A selected row whose stripped name matches the key contributes its uuid. -/
theorem rowSet_cons_eq (u p : String) (rest : List (String × String)) (k : Option String)
    (h : some (groupOfPermission p) = k) :
    rowSet ((u, p) :: rest) k = insert u (rowSet rest k) := by
  simp [rowSet, h]

/-- A selected row whose stripped name does not match the key is ignored. -/
theorem rowSet_cons_ne (u p : String) (rest : List (String × String)) (k : Option String)
    (h : ¬ some (groupOfPermission p) = k) :
    rowSet ((u, p) :: rest) k = rowSet rest k := by
  simp [rowSet, h]

/-- The accumulation loop of fetchCurrentModeratorsByGroup: when every row
names a pre-created key, it succeeds, keeps the keys, and extends the set at
every key by exactly the uuids of the rows naming it. -/
theorem buildCurrent_spec :
    ∀ (rows : List (String × String)) (m : List (Option String × Finset String)),
      (∀ r ∈ rows, some (groupOfPermission r.2) ∈ keysA m) →
      ∃ m2, buildCurrent m rows = some m2 ∧ keysA m2 = keysA m ∧
        ∀ k, lookupA m2 k = (lookupA m k).map (fun s => s ∪ rowSet rows k) := by
  intro rows
  induction rows with
  | nil =>
    intro m h
    refine ⟨m, rfl, rfl, ?_⟩
    intro k
    cases hx : lookupA m k <;> simp [rowSet, hx]
  | cons r rest ih =>
    intro m h
    obtain ⟨u, p⟩ := r
    have hmem : some (groupOfPermission p) ∈ keysA m := by
      have := h (u, p) (List.mem_cons_self _ _)
      exact this
    obtain ⟨m1, hm1, hkeys1, hlk1, hlo1⟩ := addToKey_spec m (some (groupOfPermission p)) u hmem
    have hrest : ∀ r2 ∈ rest, some (groupOfPermission r2.2) ∈ keysA m1 := by
      rw [hkeys1]
      intro r2 hr2
      exact h r2 (List.mem_cons_of_mem _ hr2)
    obtain ⟨m2, hm2, hkeys2, hlk2⟩ := ih m1 hrest
    refine ⟨m2, ?_, hkeys2.trans hkeys1, ?_⟩
    · simp [buildCurrent, hm1, hm2]
    · intro k
      rw [hlk2 k]
      by_cases hk : some (groupOfPermission p) = k
      · rw [rowSet_cons_eq u p rest k hk]
        subst hk
        rw [hlk1]
        cases hx : lookupA m (some (groupOfPermission p)) with
        | none => rfl
        | some s =>
          show some (insert u s ∪ rowSet rest (some (groupOfPermission p))) =
            some (s ∪ insert u (rowSet rest (some (groupOfPermission p))))
          rw [insert_union_comm]
      · rw [rowSet_cons_ne u p rest k hk]
        rw [hlo1 k (fun he => hk he.symm)]

/-- The uuids the loop collects at a requested name are exactly the active
global grants of that group in the store. -/
theorem rowSet_selectGrants (db : List PermRow) (names : List String) (g : String)
    (hg : g ∈ names) :
    rowSet (selectGrants db (names.map (fun x => "group." ++ x))) (some g) =
      grantSet db g := by
  unfold rowSet selectGrants grantSet
  rw [List.filter_map, List.map_map, List.filter_filter]
  have hfun : (Prod.fst ∘ fun r : PermRow => (r.uuid, r.permission)) = PermRow.uuid := rfl
  rw [hfun]
  congr 1
  congr 1
  apply List.filter_congr
  intro r _
  have hbeta : ((fun rr : String × String =>
      decide (some (groupOfPermission rr.2) = some g)) ∘
      fun rr : PermRow => (rr.uuid, rr.permission)) r =
      decide (some (groupOfPermission r.permission) = some g) := rfl
  rw [hbeta, decide_and_eq]
  apply decide_eq_decide.mpr
  constructor
  · rintro ⟨hgrp, hmem, hval, hctx⟩
    obtain ⟨g2, hg2, hperm⟩ := List.mem_map.mp hmem
    have hstr : groupOfPermission r.permission = g := Option.some.inj hgrp
    rw [← hperm, groupOfPermission_prefix] at hstr
    subst hstr
    exact ⟨hperm.symm, hval, hctx⟩
  · rintro ⟨hperm, hval, hctx⟩
    refine ⟨?_, ?_, hval, hctx⟩
    · rw [hperm, groupOfPermission_prefix]
    · rw [hperm]
      exact List.mem_map_of_mem _ hg

/-- The applied entry at a key both diff dicts know. -/
theorem applyEntry_eq (toRemove toAdd : GroupMap) (k : String) (c r a : Finset String)
    (hr : lookupA toRemove k = some r) (ha : lookupA toAdd k = some a) :
    applyEntry toRemove toAdd (k, c) = (k, (c \ r) ∪ a) := by
  unfold applyEntry
  rw [show lookupA toRemove (k, c).1 = some r from hr,
      show lookupA toAdd (k, c).1 = some a from ha]

/-! ## Claim theorems -/

/-- Claim C1: for every desired dict and every current dict whose keyspace
includes every desired key, the diff of updateGroups (lines 131-132) stores,
at every desired key k, current minus desired in toRemove and desired minus
current in toAdd. -/
theorem diff_formula (current_groups groups : GroupMap)
    (hkeys : ∀ k ∈ keysA groups, (lookupA current_groups k).isSome = true) :
    ∃ toRemove toAdd,
      computeToRemove current_groups groups = some toRemove ∧
      computeToAdd current_groups groups = some toAdd ∧
      ∀ k d c, lookupA groups k = some d → lookupA current_groups k = some c →
        lookupA toRemove k = some (c \ d) ∧ lookupA toAdd k = some (d \ c) := by
  obtain ⟨R, hR⟩ := computeDiffWith_isSome (fun c d => c \ d) current_groups groups hkeys
  obtain ⟨A, hA⟩ := computeDiffWith_isSome (fun c d => d \ c) current_groups groups hkeys
  refine ⟨R, A, hR, hA, fun k d c hd hc => ⟨?_, ?_⟩⟩
  · exact computeDiffWith_lookupA _ current_groups groups R hR k d c hd hc
  · exact computeDiffWith_lookupA _ current_groups groups A hA k d c hd hc

/-- Witness for C1 at the scenario data of the specification. -/
theorem diff_formula_witness :
    (∀ k ∈ keysA exGroups, (lookupA exCurrent k).isSome = true) ∧
    (∃ toRemove toAdd,
      computeToRemove exCurrent exGroups = some toRemove ∧
      computeToAdd exCurrent exGroups = some toAdd ∧
      ∀ k d c, lookupA exGroups k = some d → lookupA exCurrent k = some c →
        lookupA toRemove k = some (c \ d) ∧ lookupA toAdd k = some (d \ c)) :=
  ⟨by decide, diff_formula exCurrent exGroups (by decide)⟩

/-- Claim C2: applying the computed diff to the current dict reproduces the
desired dict on its whole keyspace, and a second diff against the same
desired dict is empty everywhere (convergence and idempotence). -/
theorem diff_convergence_idempotence (current_groups groups : GroupMap)
    (hkeys : ∀ k ∈ keysA groups, (lookupA current_groups k).isSome = true)
    (hnd : (keysA groups).Nodup) :
    ∃ toRemove toAdd,
      computeToRemove current_groups groups = some toRemove ∧
      computeToAdd current_groups groups = some toAdd ∧
      (∀ k d, lookupA groups k = some d →
        lookupA (applyDiff current_groups toRemove toAdd) k = some d) ∧
      ∃ toRemove2 toAdd2,
        computeToRemove (applyDiff current_groups toRemove toAdd) groups = some toRemove2 ∧
        computeToAdd (applyDiff current_groups toRemove toAdd) groups = some toAdd2 ∧
        (∀ p ∈ toRemove2, p.2 = ∅) ∧ (∀ p ∈ toAdd2, p.2 = ∅) := by
  obtain ⟨R, hR⟩ := computeDiffWith_isSome (fun c d => c \ d) current_groups groups hkeys
  obtain ⟨A, hA⟩ := computeDiffWith_isSome (fun c d => d \ c) current_groups groups hkeys
  have happly : ∀ k d, lookupA groups k = some d →
      lookupA (applyDiff current_groups R A) k = some d := by
    intro k d hd
    have hk : k ∈ keysA groups := mem_keysA_of_lookupA hd
    obtain ⟨c, hc⟩ := Option.isSome_iff_exists.mp (hkeys k hk)
    have hr := computeDiffWith_lookupA (fun c d => c \ d) current_groups groups R hR k d c hd hc
    have ha := computeDiffWith_lookupA (fun c d => d \ c) current_groups groups A hA k d c hd hc
    rw [lookupA_applyDiff, hc]
    rw [show Option.map (fun c2 => (applyEntry R A (k, c2)).2) (some c)
        = some (applyEntry R A (k, c)).2 from rfl]
    rw [applyEntry_eq R A k c (c \ d) (d \ c) hr ha]
    rw [show ((k, (c \ (c \ d)) ∪ (d \ c)) : String × Finset String).2
        = (c \ (c \ d)) ∪ (d \ c) from rfl]
    rw [sdiff_apply_identity]
  have hkeys2 : ∀ k ∈ keysA groups,
      (lookupA (applyDiff current_groups R A) k).isSome = true := by
    intro k hk
    obtain ⟨d, hd⟩ := Option.isSome_iff_exists.mp ((lookupA_isSome_iff groups k).mpr hk)
    rw [happly k d hd]
    rfl
  obtain ⟨R2, hR2⟩ :=
    computeDiffWith_isSome (fun c d => c \ d) (applyDiff current_groups R A) groups hkeys2
  obtain ⟨A2, hA2⟩ :=
    computeDiffWith_isSome (fun c d => d \ c) (applyDiff current_groups R A) groups hkeys2
  refine ⟨R, A, hR, hA, happly, R2, A2, hR2, hA2, ?_, ?_⟩
  · intro p hp
    obtain ⟨c2, d2, hc2, hd2, he⟩ :=
      computeDiffWith_mem _ (applyDiff current_groups R A) groups R2 hR2 hnd p hp
    rw [happly p.1 d2 hd2] at hc2
    rw [he, Option.some.inj hc2, Finset.sdiff_self]
  · intro p hp
    obtain ⟨c2, d2, hc2, hd2, he⟩ :=
      computeDiffWith_mem _ (applyDiff current_groups R A) groups A2 hA2 hnd p hp
    rw [happly p.1 d2 hd2] at hc2
    rw [he, Option.some.inj hc2, Finset.sdiff_self]

/-- Witness for C2 at the scenario data of the specification. -/
theorem diff_convergence_idempotence_witness :
    ((∀ k ∈ keysA exGroups, (lookupA exCurrent k).isSome = true) ∧
      (keysA exGroups).Nodup) ∧
    (∃ toRemove toAdd,
      computeToRemove exCurrent exGroups = some toRemove ∧
      computeToAdd exCurrent exGroups = some toAdd ∧
      (∀ k d, lookupA exGroups k = some d →
        lookupA (applyDiff exCurrent toRemove toAdd) k = some d) ∧
      ∃ toRemove2 toAdd2,
        computeToRemove (applyDiff exCurrent toRemove toAdd) exGroups = some toRemove2 ∧
        computeToAdd (applyDiff exCurrent toRemove toAdd) exGroups = some toAdd2 ∧
        (∀ p ∈ toRemove2, p.2 = ∅) ∧ (∀ p ∈ toAdd2, p.2 = ∅)) :=
  ⟨⟨by decide, by decide⟩,
    diff_convergence_idempotence exCurrent exGroups (by decide) (by decide)⟩

/-- Claim C3: at every desired key, toAdd and toRemove are disjoint, toAdd is
disjoint from the current set and toRemove is contained in the current set. -/
theorem diff_disjointness (current_groups groups : GroupMap)
    (hkeys : ∀ k ∈ keysA groups, (lookupA current_groups k).isSome = true) :
    ∃ toRemove toAdd,
      computeToRemove current_groups groups = some toRemove ∧
      computeToAdd current_groups groups = some toAdd ∧
      ∀ k d c, lookupA groups k = some d → lookupA current_groups k = some c →
        ∃ r a, lookupA toRemove k = some r ∧ lookupA toAdd k = some a ∧
          a ∩ r = ∅ ∧ a ∩ c = ∅ ∧ r ⊆ c := by
  obtain ⟨R, hR⟩ := computeDiffWith_isSome (fun c d => c \ d) current_groups groups hkeys
  obtain ⟨A, hA⟩ := computeDiffWith_isSome (fun c d => d \ c) current_groups groups hkeys
  refine ⟨R, A, hR, hA, fun k d c hd hc => ⟨c \ d, d \ c, ?_, ?_, ?_, ?_, ?_⟩⟩
  · exact computeDiffWith_lookupA _ current_groups groups R hR k d c hd hc
  · exact computeDiffWith_lookupA _ current_groups groups A hA k d c hd hc
  · exact sdiff_sdiff_inter_empty c d
  · exact Finset.sdiff_inter_self c d
  · exact Finset.sdiff_subset

/-- Witness for C3 at the scenario data of the specification. -/
theorem diff_disjointness_witness :
    (∀ k ∈ keysA exGroups, (lookupA exCurrent k).isSome = true) ∧
    (∃ toRemove toAdd,
      computeToRemove exCurrent exGroups = some toRemove ∧
      computeToAdd exCurrent exGroups = some toAdd ∧
      ∀ k d c, lookupA exGroups k = some d → lookupA exCurrent k = some c →
        ∃ r a, lookupA toRemove k = some r ∧ lookupA toAdd k = some a ∧
          a ∩ r = ∅ ∧ a ∩ c = ∅ ∧ r ⊆ c) :=
  ⟨by decide, diff_disjointness exCurrent exGroups (by decide)⟩

/-- Claim C6: one run writes exactly one audit row per mutated membership —
the total equals the size of toAdd plus the size of toRemove — and every row
carries the action text "parent remove <group>" or "parent add <group>" of
the call that wrote it. -/
theorem audit_completeness (nameOf : String → Option String) (now : Nat)
    (current_groups groups toRemove toAdd : GroupMap) (t : Trace)
    (hR : computeToRemove current_groups groups = some toRemove)
    (hA : computeToAdd current_groups groups = some toAdd)
    (ht : updateGroups nameOf now current_groups groups = some t) :
    Multiset.card t.audit = sumCards toAdd + sumCards toRemove ∧
    ∀ e ∈ t.audit,
      (∃ g m, (g, m) ∈ t.removeCalls ∧ e.acted_uuid ∈ m ∧
        e.action = "parent remove " ++ g) ∨
      (∃ g m, (g, m) ∈ t.addCalls ∧ e.acted_uuid ∈ m ∧
        e.action = "parent add " ++ g) := by
  obtain ⟨R, A, hR2, hA2, hte⟩ := updateGroups_some nameOf now current_groups groups t ht
  have hRR : R = toRemove := Option.some.inj (hR2.symm.trans hR)
  have hAA : A = toAdd := Option.some.inj (hA2.symm.trans hA)
  subst hRR
  subst hAA
  subst hte
  constructor
  · show Multiset.card ((processBatch (removeMembers nameOf now) R).audit
      + (processBatch (addMembers nameOf now) A).audit) = sumCards A + sumCards R
    rw [Multiset.card_add]
    rw [processBatch_audit_card (removeMembers nameOf now)
        (fun g m => logUsersAction_card nameOf now m ("parent remove " ++ g)) R]
    rw [processBatch_audit_card (addMembers nameOf now)
        (fun g m => logUsersAction_card nameOf now m ("parent add " ++ g)) A]
    omega
  · intro e he
    have he2 : e ∈ (processBatch (removeMembers nameOf now) R).audit
        + (processBatch (addMembers nameOf now) A).audit := he
    rcases Multiset.mem_add.mp he2 with hrem | hadd
    · obtain ⟨g, m, hgm, hm⟩ :=
        processBatch_audit_mem (removeMembers nameOf now) R e hrem
      have hl := logUsersAction_mem nameOf now m ("parent remove " ++ g) e hm
      exact Or.inl ⟨g, m, hgm, hl.1, hl.2⟩
    · obtain ⟨g, m, hgm, hm⟩ :=
        processBatch_audit_mem (addMembers nameOf now) A e hadd
      have hl := logUsersAction_mem nameOf now m ("parent add " ++ g) e hm
      exact Or.inr ⟨g, m, hgm, hl.1, hl.2⟩

/-- Witness for C6 at the scenario data: 1 addition and 2 removals give
exactly 3 audit rows. -/
theorem audit_completeness_witness :
    (computeToRemove exCurrent exGroups = some exToRemove ∧
     computeToAdd exCurrent exGroups = some exToAdd ∧
     updateGroups exNameOf 0 exCurrent exGroups = some exTrace) ∧
    (Multiset.card exTrace.audit = sumCards exToAdd + sumCards exToRemove ∧
     ∀ e ∈ exTrace.audit,
       (∃ g m, (g, m) ∈ exTrace.removeCalls ∧ e.acted_uuid ∈ m ∧
         e.action = "parent remove " ++ g) ∨
       (∃ g m, (g, m) ∈ exTrace.addCalls ∧ e.acted_uuid ∈ m ∧
         e.action = "parent add " ++ g)) :=
  ⟨⟨by decide, by decide, by decide⟩,
    audit_completeness exNameOf 0 exCurrent exGroups exToRemove exToAdd exTrace
      (by decide) (by decide) (by decide)⟩

/-- Claim C7: a group present in the current dict but absent from the desired
dict appears in neither diff dict, receives no removeMembers or addMembers
call, and no audit row names it in either action text. -/
theorem out_of_scope_untouched (nameOf : String → Option String) (now : Nat)
    (current_groups groups toRemove toAdd : GroupMap) (t : Trace) (k : String)
    (hR : computeToRemove current_groups groups = some toRemove)
    (hA : computeToAdd current_groups groups = some toAdd)
    (ht : updateGroups nameOf now current_groups groups = some t)
    (hmemC : k ∈ keysA current_groups) (hnotD : k ∉ keysA groups) :
    k ∉ keysA toRemove ∧ k ∉ keysA toAdd ∧
    (∀ m : Finset String, (k, m) ∉ t.removeCalls ∧ (k, m) ∉ t.addCalls) ∧
    (∀ e ∈ t.audit,
      e.action ≠ "parent remove " ++ k ∧ e.action ≠ "parent add " ++ k) := by
  obtain ⟨R, A, hR2, hA2, hte⟩ := updateGroups_some nameOf now current_groups groups t ht
  have hRR : R = toRemove := Option.some.inj (hR2.symm.trans hR)
  have hAA : A = toAdd := Option.some.inj (hA2.symm.trans hA)
  subst hRR
  subst hAA
  subst hte
  have hkR : keysA R = keysA groups :=
    computeDiffWith_keys (fun c d => c \ d) current_groups groups R hR
  have hkA : keysA A = keysA groups :=
    computeDiffWith_keys (fun c d => d \ c) current_groups groups A hA
  have hnR : k ∉ keysA R := by rw [hkR]; exact hnotD
  have hnA : k ∉ keysA A := by rw [hkA]; exact hnotD
  refine ⟨hnR, hnA, ?_, ?_⟩
  · intro m
    constructor
    · intro hc
      have hmem := (processBatch_calls (removeMembers nameOf now) R (k, m) hc).1
      exact hnR (List.mem_map_of_mem Prod.fst hmem)
    · intro hc
      have hmem := (processBatch_calls (addMembers nameOf now) A (k, m) hc).1
      exact hnA (List.mem_map_of_mem Prod.fst hmem)
  · intro e he
    have he2 : e ∈ (processBatch (removeMembers nameOf now) R).audit
        + (processBatch (addMembers nameOf now) A).audit := he
    rcases Multiset.mem_add.mp he2 with hrem | hadd
    · obtain ⟨g, m, hgm, hm⟩ :=
        processBatch_audit_mem (removeMembers nameOf now) R e hrem
      have hl := logUsersAction_mem nameOf now m ("parent remove " ++ g) e hm
      have hgmem := (processBatch_calls (removeMembers nameOf now) R (g, m) hgm).1
      have hgk : g ≠ k := by
        intro hgk
        apply hnR
        rw [← hgk]
        exact List.mem_map_of_mem Prod.fst hgmem
      constructor
      · intro hc
        rw [hl.2] at hc
        exact hgk (string_append_left_cancel hc)
      · intro hc
        rw [hl.2] at hc
        exact parent_add_ne_remove k g hc.symm
    · obtain ⟨g, m, hgm, hm⟩ :=
        processBatch_audit_mem (addMembers nameOf now) A e hadd
      have hl := logUsersAction_mem nameOf now m ("parent add " ++ g) e hm
      have hgmem := (processBatch_calls (addMembers nameOf now) A (g, m) hgm).1
      have hgk : g ≠ k := by
        intro hgk
        apply hnA
        rw [← hgk]
        exact List.mem_map_of_mem Prod.fst hgmem
      constructor
      · intro hc
        rw [hl.2] at hc
        exact parent_add_ne_remove g k hc
      · intro hc
        rw [hl.2] at hc
        exact hgk (string_append_left_cancel hc)

/-- Witness for C7: the group "extra" exists only in the current dict and is
untouched by the sample run. -/
theorem out_of_scope_untouched_witness :
    (computeToRemove exCurrent exGroups = some exToRemove ∧
     computeToAdd exCurrent exGroups = some exToAdd ∧
     updateGroups exNameOf 0 exCurrent exGroups = some exTrace ∧
     "extra" ∈ keysA exCurrent ∧ "extra" ∉ keysA exGroups) ∧
    ("extra" ∉ keysA exToRemove ∧ "extra" ∉ keysA exToAdd ∧
     (∀ m : Finset String, ("extra", m) ∉ exTrace.removeCalls ∧
       ("extra", m) ∉ exTrace.addCalls) ∧
     (∀ e ∈ exTrace.audit,
       e.action ≠ "parent remove " ++ "extra" ∧
       e.action ≠ "parent add " ++ "extra")) :=
  ⟨⟨by decide, by decide, by decide, by decide, by decide⟩,
    out_of_scope_untouched exNameOf 0 exCurrent exGroups exToRemove exToAdd exTrace
      "extra" (by decide) (by decide) (by decide) (by decide) (by decide)⟩

/-- Claim C8: the totals are the sizes of the two diff dicts (each call
returns the number of members processed) and the transaction is committed
exactly when the combined total is positive; an empty diff commits nothing. -/
theorem commit_iff_changes (nameOf : String → Option String) (now : Nat)
    (current_groups groups toRemove toAdd : GroupMap) (t : Trace)
    (hR : computeToRemove current_groups groups = some toRemove)
    (hA : computeToAdd current_groups groups = some toAdd)
    (ht : updateGroups nameOf now current_groups groups = some t) :
    t.removed = sumCards toRemove ∧ t.added = sumCards toAdd ∧
    (t.committed = true ↔ 0 < t.added + t.removed) ∧
    (((∀ p ∈ toRemove, p.2 = ∅) ∧ (∀ p ∈ toAdd, p.2 = ∅)) →
      t.committed = false) := by
  obtain ⟨R, A, hR2, hA2, hte⟩ := updateGroups_some nameOf now current_groups groups t ht
  have hRR : R = toRemove := Option.some.inj (hR2.symm.trans hR)
  have hAA : A = toAdd := Option.some.inj (hA2.symm.trans hA)
  subst hRR
  subst hAA
  subst hte
  have hrem : (processBatch (removeMembers nameOf now) R).count = sumCards R :=
    processBatch_count (removeMembers nameOf now) (fun g m => rfl) R
  have hadd : (processBatch (addMembers nameOf now) A).count = sumCards A :=
    processBatch_count (addMembers nameOf now) (fun g m => rfl) A
  refine ⟨hrem, hadd, ?_, ?_⟩
  · show ((processBatch (addMembers nameOf now) A).count != 0
        || (processBatch (removeMembers nameOf now) R).count != 0) = true
      ↔ 0 < (processBatch (addMembers nameOf now) A).count
        + (processBatch (removeMembers nameOf now) R).count
    simp only [Bool.or_eq_true, bne_iff_ne, ne_eq]
    omega
  · rintro ⟨h1, h2⟩
    show ((processBatch (addMembers nameOf now) A).count != 0
        || (processBatch (removeMembers nameOf now) R).count != 0) = false
    rw [hrem, hadd, sumCards_eq_zero h1, sumCards_eq_zero h2]
    rfl

/-- Witness for C8 at the scenario data: 1 added plus 2 removed forces the
commit. -/
theorem commit_iff_changes_witness :
    (computeToRemove exCurrent exGroups = some exToRemove ∧
     computeToAdd exCurrent exGroups = some exToAdd ∧
     updateGroups exNameOf 0 exCurrent exGroups = some exTrace) ∧
    (exTrace.removed = sumCards exToRemove ∧ exTrace.added = sumCards exToAdd ∧
     (exTrace.committed = true ↔ 0 < exTrace.added + exTrace.removed) ∧
     (((∀ p ∈ exToRemove, p.2 = ∅) ∧ (∀ p ∈ exToAdd, p.2 = ∅)) →
       exTrace.committed = false)) :=
  ⟨⟨by decide, by decide, by decide⟩,
    commit_iff_changes exNameOf 0 exCurrent exGroups exToRemove exToAdd exTrace
      (by decide) (by decide) (by decide)⟩

/-- Claim C9: updateGroups only ever calls removeMembers and addMembers with
non-empty member sets, so logUsersAction always receives a non-empty uuid
collection and the DELETE is always built with a non-empty uuid IN-list. -/
theorem no_empty_mutation_calls (nameOf : String → Option String) (now : Nat)
    (current_groups groups : GroupMap) (t : Trace)
    (ht : updateGroups nameOf now current_groups groups = some t) :
    (∀ g m, (g, m) ∈ t.removeCalls → m ≠ ∅ ∧
      logUsersAction nameOf now m ("parent remove " ++ g) ≠ 0 ∧
      inListPlaceholders m.card ≠ "") ∧
    (∀ g m, (g, m) ∈ t.addCalls → m ≠ ∅ ∧
      logUsersAction nameOf now m ("parent add " ++ g) ≠ 0) := by
  obtain ⟨R, A, hR, hA, hte⟩ := updateGroups_some nameOf now current_groups groups t ht
  subst hte
  constructor
  · intro g m hgm
    have hcard : m.card ≠ 0 :=
      (processBatch_calls (removeMembers nameOf now) R (g, m) hgm).2
    refine ⟨?_, ?_, inListPlaceholders_ne_empty hcard⟩
    · intro hm
      apply hcard
      rw [hm]
      exact Finset.card_empty
    · intro hlog
      have hc := logUsersAction_card nameOf now m ("parent remove " ++ g)
      rw [hlog] at hc
      exact hcard (by simpa using hc.symm)
  · intro g m hgm
    have hcard : m.card ≠ 0 :=
      (processBatch_calls (addMembers nameOf now) A (g, m) hgm).2
    refine ⟨?_, ?_⟩
    · intro hm
      apply hcard
      rw [hm]
      exact Finset.card_empty
    · intro hlog
      have hc := logUsersAction_card nameOf now m ("parent add " ++ g)
      rw [hlog] at hc
      exact hcard (by simpa using hc.symm)

/-- Witness for C9 at the scenario data. -/
theorem no_empty_mutation_calls_witness :
    (updateGroups exNameOf 0 exCurrent exGroups = some exTrace) ∧
    ((∀ g m, (g, m) ∈ exTrace.removeCalls → m ≠ ∅ ∧
      logUsersAction exNameOf 0 m ("parent remove " ++ g) ≠ 0 ∧
      inListPlaceholders m.card ≠ "") ∧
    (∀ g m, (g, m) ∈ exTrace.addCalls → m ≠ ∅ ∧
      logUsersAction exNameOf 0 m ("parent add " ++ g) ≠ 0)) :=
  ⟨by decide, no_empty_mutation_calls exNameOf 0 exCurrent exGroups exTrace (by decide)⟩

/-- Claim C4 counterexample: called with an empty group-name set, the code
does issue the underlying query — whose IN-list is empty — and the failure it
ends with is the store-side query error, not a ConfigurationError raised
before sending. -/
theorem fetchCurrent_empty_counterexample :
    (fetchCurrentModeratorsByGroup [] []).issued = [selectQuery 0] ∧
    (fetchCurrentModeratorsByGroup [] []).result = Except.error SyncError.queryError ∧
    SyncError.queryError ≠ SyncError.configurationError := by
  refine ⟨rfl, rfl, by decide⟩

/-- Claim C4 (amended): for every store, a call with an empty group-name set
builds the SELECT with an empty IN-list, issues it, and fails with the
store-side query error; the code has no ConfigurationError guard. -/
theorem fetchCurrent_empty_issues_malformed (db : List PermRow) :
    (fetchCurrentModeratorsByGroup db []).issued = [selectQuery 0] ∧
    (fetchCurrentModeratorsByGroup db []).result = Except.error SyncError.queryError := by
  exact ⟨rfl, rfl⟩

/-- Claim C5: for every non-empty set of requested names, the returned dict
has exactly the requested names as keys, a group without grants maps to the
empty set, and every group g maps to exactly the uuids holding an active,
global-context grant of the permission "group." ++ g. -/
theorem fetchCurrent_nonempty_spec (db : List PermRow) (names : List String)
    (hne : names ≠ []) (hnd : names.Nodup) :
    ∃ m, (fetchCurrentModeratorsByGroup db (names.map some)).result = .ok m ∧
      keysA m = names.map some ∧
      ∀ g ∈ names, lookupA m (some g) = some (grantSet db g) := by
  have hlen : names.length ≠ 0 := fun h => hne (List.eq_nil_of_length_eq_zero h)
  have hpre : ∀ r ∈ selectGrants db (names.map (fun x => "group." ++ x)),
      some (groupOfPermission r.2) ∈
        keysA ((names.map some).map (fun k => (k, (∅ : Finset String)))) := by
    intro r hr
    rw [keysA_map_pair]
    unfold selectGrants at hr
    obtain ⟨row, hrow, hr2⟩ := List.mem_map.mp hr
    have hcond := (List.mem_filter.mp hrow).2
    rw [decide_eq_true_eq] at hcond
    obtain ⟨hmemp, hval, hctx⟩ := hcond
    obtain ⟨g2, hg2, hperm⟩ := List.mem_map.mp hmemp
    rw [← hr2]
    show some (groupOfPermission row.permission) ∈ names.map some
    rw [← hperm, groupOfPermission_prefix]
    exact List.mem_map_of_mem some hg2
  obtain ⟨m2, hm2, hkeys, hlk⟩ :=
    buildCurrent_spec (selectGrants db (names.map (fun x => "group." ++ x)))
      ((names.map some).map (fun k => (k, (∅ : Finset String)))) hpre
  refine ⟨m2, ?_, ?_, ?_⟩
  · simp only [fetchCurrentModeratorsByGroup, buildParams_map_some, List.length_map,
      if_neg (inListPlaceholders_ne_empty hlen), hm2]
  · rw [hkeys, keysA_map_pair]
  · intro g hg
    rw [hlk (some g)]
    rw [lookupA_map_empty (names.map some) (some g) (List.mem_map_of_mem some hg)]
    rw [show Option.map
        (fun s => s ∪ rowSet (selectGrants db (names.map (fun x => "group." ++ x))) (some g))
        (some ∅)
        = some (∅ ∪ rowSet (selectGrants db (names.map (fun x => "group." ++ x))) (some g))
        from rfl]
    rw [Finset.empty_union]
    rw [rowSet_selectGrants db names g hg]

/-- Witness for C5 at the sample permissions table. -/
theorem fetchCurrent_nonempty_spec_witness :
    (exNames ≠ [] ∧ exNames.Nodup) ∧
    (∃ m, (fetchCurrentModeratorsByGroup exDb (exNames.map some)).result = .ok m ∧
      keysA m = exNames.map some ∧
      ∀ g ∈ exNames, lookupA m (some g) = some (grantSet exDb g)) :=
  ⟨⟨by decide, by decide⟩, fetchCurrent_nonempty_spec exDb exNames (by decide) (by decide)⟩

/-- Claim C10: an admin catalog holding a group with a NULL external name and
no member rows makes fetchModeratorsByGroup return a dict with a null key,
and feeding that keyset to fetchCurrentModeratorsByGroup fails with the
TypeError raised while prefixing "group." to the null name — before any query
is issued — rather than one of the declared error kinds. -/
theorem null_group_key_type_error :
    fetchModeratorsByGroup [] exAdminGroups = [(none, (∅ : Finset String))] ∧
    (fetchCurrentModeratorsByGroup []
      (keysA (fetchModeratorsByGroup [] exAdminGroups))).result
      = Except.error SyncError.typeError ∧
    (fetchCurrentModeratorsByGroup []
      (keysA (fetchModeratorsByGroup [] exAdminGroups))).issued = [] := by
  refine ⟨?_, ?_, ?_⟩ <;> rfl
